import Mathlib

/-!
Shallow embedding of the functional combinator library in
`Plugins/ForbocAI_SDK/Source/ForbocAI_SDK/Public/Core/functional_core.hpp`
(namespace `func`), together with theorems settling the claims about it.

Machine-level C++ details that do not affect the claims (move semantics,
references, template instantiation) are elided; every function body below
mirrors the corresponding C++ body statement by statement.  Mutable objects
(`Lazy` caching, `AsyncResult` execution) are embedded by explicit state
passing; side effects of client callbacks are embedded as effect tokens
collected in lists, in invocation order.
-/

namespace func

/-- `Either<E, T>` from section 4 of functional_core.hpp: a plain data
struct with a tag `isLeft`, an error slot `left` and a success slot
`right`.  Both slots are always present (the C++ struct stores both, the
unused one default-constructed), so the embedding keeps both fields. -/
structure Either (E T : Type) where
  isLeft : Bool
  left : E
  right : T
deriving Repr, DecidableEq

/-- Factory `make_left(e)`: `{true, e, T{}}`; `T{}` is the default value. -/
def make_left {E T : Type} [Inhabited T] (e : E) : Either E T :=
  ⟨true, e, default⟩

/-- Factory `make_right(v)`: `{false, E{}, v}`; `E{}` is the default value. -/
def make_right {E T : Type} [Inhabited E] (v : T) : Either E T :=
  ⟨false, default, v⟩

/-- `ebind` from section 10: if `e.isLeft` return `{true, e.left, {}}`,
else return `f(e.right)`. -/
def ebind {E T U : Type} [Inhabited U] (e : Either E T) (f : T → Either E U) :
    Either E U :=
  if e.isLeft then ⟨true, e.left, default⟩ else f e.right

/-- `Curried<Arity, Func, CapturedArgs>` from section 5: stores the
wrapped function and the arguments captured so far.  The C++ captured
tuple is embedded as a list (the claims use one argument type), and the
wrapped function takes the concatenated argument list, embedding
`func::apply` on the concatenated tuple. -/
structure Curried (Arity : Nat) (α β : Type) where
  func : List α → β
  args : List α

/-- The result of one `Curried::operator()` call: either another
`Curried` (partial application, the enable_if branch with cumulative
count below `Arity`) or the value of the underlying function (full
application). -/
inductive AppResult (Arity : Nat) (α β : Type) where
  | more : Curried Arity α β → AppResult Arity α β
  | done : β → AppResult Arity α β

/-- `Curried::operator()(new_args...)`: if the cumulative argument count
stays below `Arity`, return a new `Curried` holding the concatenation
`tuple_cat(args, new_args)`; otherwise invoke
`apply(func, tuple_cat(args, new_args))` and return its result. -/
def Curried.app {Arity : Nat} {α β : Type} (c : Curried Arity α β)
    (newArgs : List α) : AppResult Arity α β :=
  if c.args.length + newArgs.length < Arity then
    .more ⟨c.func, c.args ++ newArgs⟩
  else
    .done (c.func (c.args ++ newArgs))

/-- Factory `curry<Arity>(f)`: a `Curried` with an empty captured tuple. -/
def curry (Arity : Nat) {α β : Type} (f : List α → β) : Curried Arity α β :=
  ⟨f, []⟩

/-- A binary C++ function viewed as a function on the concatenated
argument list, as `func::apply` unpacks a 2-tuple into the two
parameters (positions 0 and 1 of the list). -/
def arity2 {α β : Type} [Inhabited α] (add : α → α → β) : List α → β :=
  fun l => add (l.getD 0 default) (l.getD 1 default)

/-- `Lazy<T>` from section 6: a thunk plus a mutable cache slot,
embedded as explicit state (`cached = none` iff the C++ shared_ptr is
null). -/
structure Lazy (T : Type) where
  thunk : Unit → T
  cached : Option T

/-- Factory `lazy(f)`: thunk stored, cache empty (`nullptr`). -/
def lazy {T : Type} (f : Unit → T) : Lazy T :=
  ⟨f, none⟩

/-- `eval(lz)`: if the cache is empty, invoke the thunk, store the
result, return it; otherwise return the cached value.  State passing:
returns the value, the post-state, and the number of thunk invocations
performed by this call (0 or 1). -/
def eval {T : Type} (lz : Lazy T) : T × Lazy T × Nat :=
  match lz.cached with
  | some v => (v, lz, 0)
  | none =>
    let v := lz.thunk ()
    (v, ⟨lz.thunk, some v⟩, 1)

/-- `n` successive calls to `eval` on the same `Lazy` instance,
accumulating the total number of thunk invocations. -/
def evalN {T : Type} (lz : Lazy T) : Nat → Lazy T × Nat
  | 0 => (lz, 0)
  | n + 1 =>
    let r := eval lz
    let s := evalN r.2.1 n
    (s.1, r.2.2 + s.2)

/-- `TestResult<T>` from section 14: success flag, value, message and a
string-keyed details map (embedded as an association list; the claims do
not depend on hash-map iteration order). -/
structure TestResult (T : Type) where
  success : Bool
  value : T
  message : String
  details : List (String × String)

/-- Factory `TestResult<T>::success(value, message)`:
`{true, value, message, {}}`.  (Named `mkSuccess` because `success` is
the field name.) -/
def TestResult.mkSuccess {T : Type} (value : T) (message : String) :
    TestResult T :=
  ⟨true, value, message, []⟩

/-- Factory `TestResult<T>::failure(message)`: `{false, T{}, message, {}}`. -/
def TestResult.failure {T : Type} [Inhabited T] (message : String) :
    TestResult T :=
  ⟨false, default, message, []⟩

/-- `TestResult::isSuccessful()`. -/
def TestResult.isSuccessful {T : Type} (r : TestResult T) : Bool :=
  r.success

/-- `TestResult::getValue()`: `if (!success) throw std::runtime_error(...);
return value;`.  The throw is embedded as `Except.error` carrying the
exception message; a normal return is `Except.ok`. -/
def TestResult.getValue {T : Type} (r : TestResult T) : Except String T :=
  if !r.success then
    Except.error "TestResult: Cannot get value from failure"
  else
    Except.ok r.value

/-- `AsyncResult<T>` from section 15: the stored executor plus the
registered success and error handler vectors.  A handler is embedded as
a function producing one effect token (of type `ε`); the executor
receives the resolve and reject callbacks and returns the effect trace
its run produces, in invocation order. -/
structure AsyncResult (T ε : Type) where
  executor : (T → List ε) → (String → List ε) → List ε
  successHandlers : List (T → ε)
  errorHandlers : List (String → ε)

/-- Factory `AsyncResult<T>::create(executor)`: no handlers yet. -/
def AsyncResult.create {T ε : Type}
    (executor : (T → List ε) → (String → List ε) → List ε) :
    AsyncResult T ε :=
  ⟨executor, [], []⟩

/-- `AsyncResult::then(handler)`: pushes a success handler at the back.
(Named `thenH` because `then` is reserved in Lean.) -/
def AsyncResult.thenH {T ε : Type} (ar : AsyncResult T ε) (handler : T → ε) :
    AsyncResult T ε :=
  { ar with successHandlers := ar.successHandlers ++ [handler] }

/-- `AsyncResult::catch_(handler)`: pushes an error handler at the back. -/
def AsyncResult.catch_ {T ε : Type} (ar : AsyncResult T ε)
    (handler : String → ε) : AsyncResult T ε :=
  { ar with errorHandlers := ar.errorHandlers ++ [handler] }

/-- `AsyncResult::execute()`: calls the executor with a resolve callback
that runs every success handler in order on the value, and a reject
callback that runs every error handler in order on the error.  The
method reads but never writes the object, so the post-state is the
object itself; the second component is the effect trace. -/
def AsyncResult.execute {T ε : Type} (ar : AsyncResult T ε) :
    AsyncResult T ε × List ε :=
  (ar,
   ar.executor
     (fun value => ar.successHandlers.map (fun h => h value))
     (fun err => ar.errorHandlers.map (fun h => h err)))

/-- `k` successive calls to `execute()` on the same `AsyncResult`
object, concatenating the effect traces. -/
def AsyncResult.executeN {T ε : Type} (ar : AsyncResult T ε) :
    Nat → AsyncResult T ε × List ε
  | 0 => (ar, [])
  | k + 1 =>
    let r := ar.execute
    let s := r.1.executeN k
    (s.1, r.2 ++ s.2)

/-- The configuration object built by `ConfigBuilder<Config>`.  The
source only assumes the user-supplied `Config` type has a `set` method
(see the comment in `ConfigBuilder::set`); it is embedded as a map from
keys to values with pointwise update and the default-constructed object
being the empty map. -/
def Config (V : Type) := String → Option V

/-- The assumed `Config::set(key, value)` method: point update. -/
def Config.set {V : Type} (c : Config V) (key : String) (value : V) :
    Config V :=
  fun k => if k = key then some value else c k

/-- Default-constructed `Config` (as in `ConfigBuilder::build`). -/
def Config.empty {V : Type} : Config V :=
  fun _ => none

/-- `ConfigBuilder<Config>`: the stored
`std::unordered_map<std::string, std::function<void(Config&)>>` of
setters, embedded as an association list with at most one entry per
key (hash-map iteration order is unspecified and no claim depends on
it). -/
structure ConfigBuilder (V : Type) where
  setters : List (String × (Config V → Config V))

/-- `unordered_map::operator[]` assignment `setters[key] = f`: replace
the entry when the key is present, append a new entry otherwise. -/
def mapAssign {A : Type} (ss : List (String × A)) (k : String) (a : A) :
    List (String × A) :=
  if k ∈ ss.map Prod.fst then
    ss.map (fun p => if p.1 = k then (k, a) else p)
  else
    ss ++ [(k, a)]

/-- `ConfigBuilder::set(key, value)`: stores (assigning into the map)
the setter closure `config.set(key, value)`. -/
def ConfigBuilder.set {V : Type} (b : ConfigBuilder V) (key : String)
    (value : V) : ConfigBuilder V :=
  ⟨mapAssign b.setters key (fun config => config.set key value)⟩

/-- `ConfigBuilder::build()`: default-construct a `Config` and apply
every stored setter to it. -/
def ConfigBuilder.build {V : Type} (b : ConfigBuilder V) : Config V :=
  b.setters.foldl (fun config p => p.2 config) Config.empty

/-- Factory `configBuilder()`: an empty builder. -/
def configBuilder (V : Type) : ConfigBuilder V :=
  ⟨[]⟩

/-- A sequence of `set` calls on a fresh builder. -/
def setAll {V : Type} (ops : List (String × V)) : ConfigBuilder V :=
  ops.foldl (fun b p => b.set p.1 p.2) (configBuilder V)

/-- A validator stored by `ValidationPipeline<T>`:
`std::function<Either<std::string, T>(T)>`. -/
abbrev Validator (T : Type) := T → Either String T

/-- The loop body of `ValidationPipeline<T>::run` over the stored validator
vector: for each validator in order, evaluate it on the current value;
return the result at the first `isLeft`; otherwise continue with
`result.right`; after the loop return success with the final value
(`make_right(std::string{}, value)`, i.e. `{false, "", value}`). -/
def runList {T : Type} : List (Validator T) → T → Either String T
  | [], value => ⟨false, "", value⟩
  | v :: rest, value =>
    let result := v value
    if result.isLeft then result else runList rest result.right

/-- `ValidationPipeline<T>`: holds the vector of validators. -/
structure ValidationPipeline (T : Type) where
  validators : List (Validator T)

/-- `ValidationPipeline::add`: pushes a validator at the back. -/
def ValidationPipeline.add {T : Type} (p : ValidationPipeline T)
    (v : Validator T) : ValidationPipeline T :=
  ⟨p.validators ++ [v]⟩

/-- `ValidationPipeline::run`, via `runList` on the stored vector. -/
def ValidationPipeline.run {T : Type} (p : ValidationPipeline T) (value : T) :
    Either String T :=
  runList p.validators value

/-- Instrumented `run`: same control flow as `runList`, additionally
returning the list of inputs actually passed to validators, in invocation
order (one entry per validator invocation). -/
def runListTrace {T : Type} : List (Validator T) → T → Either String T × List T
  | [], value => (⟨false, "", value⟩, [])
  | v :: rest, value =>
    let result := v value
    if result.isLeft then (result, [value])
    else
      let p := runListTrace rest result.right
      (p.1, value :: p.2)

/-- `allSucceed vs x`: every validator in `vs`, evaluated on the threaded
value starting from `x`, returns a non-left result. -/
def allSucceed {T : Type} : List (Validator T) → T → Bool
  | [], _ => true
  | v :: rest, x => !(v x).isLeft && allSucceed rest (v x).right

/-- `threadAll vs x`: the value obtained after threading `x` through the
success slots of all validators in `vs`. -/
def threadAll {T : Type} : List (Validator T) → T → T
  | [], x => x
  | v :: rest, x => threadAll rest (v x).right

/-- `inputsTo vs x`: the inputs each validator of `vs` receives when the
value is threaded from `x` (entry `i+1` is the success value returned
by the validator at entry `i`). -/
def inputsTo {T : Type} : List (Validator T) → T → List T
  | [], _ => []
  | v :: rest, x => x :: inputsTo rest (v x).right

theorem runList_eq_trace {T : Type} (vs : List (Validator T)) (x : T) :
    runList vs x = (runListTrace vs x).1 := by
  induction vs generalizing x with
  | nil => rfl
  | cons v rest ih =>
    simp only [runList, runListTrace]
    by_cases h : (v x).isLeft
    · simp [h]
    · simp [h, ih]

theorem runListTrace_firstFail {T : Type} (pre : List (Validator T))
    (v : Validator T) (post : List (Validator T)) (x : T)
    (hpre : allSucceed pre x = true)
    (hv : (v (threadAll pre x)).isLeft = true) :
    runListTrace (pre ++ v :: post) x =
      (v (threadAll pre x), inputsTo pre x ++ [threadAll pre x]) := by
  induction pre generalizing x with
  | nil =>
    simp only [List.nil_append, runListTrace, threadAll, inputsTo,
      List.nil_append] at *
    simp [hv]
  | cons w rest ih =>
    simp only [allSucceed, Bool.and_eq_true, Bool.not_eq_true'] at hpre
    obtain ⟨hw, hrest⟩ := hpre
    simp only [threadAll] at hv
    have hih := ih (w x).right hrest hv
    simp only [List.cons_append, runListTrace, hw, Bool.false_eq_true,
      if_false, threadAll, inputsTo, List.append_eq]
    rw [hih]

/-- C1: for every validator list and input, `ValidationPipeline::run`
evaluates the validators strictly in list order, threading the value
(validator `i+1` receives the success value of validator `i`); at the
first validator returning a failure it stops, returns that failure, and
no later validator is ever invoked.  Formally: decompose the list as
`pre ++ v :: post` with all of `pre` succeeding on the threaded value and
`v` failing on it; then `run` returns exactly the result of `v`, and the
trace of validator invocations is exactly the threaded inputs through
`pre` followed by the input handed to `v` — nothing of `post` appears,
and each entry `i+1` of the trace is the success value of entry `i`. -/
theorem validationPipeline_short_circuit {T : Type}
    (pre post : List (Validator T)) (v : Validator T) (x : T)
    (hpre : allSucceed pre x = true)
    (hv : (v (threadAll pre x)).isLeft = true) :
    (ValidationPipeline.mk (pre ++ v :: post)).run x = v (threadAll pre x) ∧
      (runListTrace (pre ++ v :: post) x).2 =
        inputsTo pre x ++ [threadAll pre x] := by
  have h := runListTrace_firstFail pre v post x hpre hv
  refine ⟨?_, ?_⟩
  · rw [ValidationPipeline.run, runList_eq_trace, h]
  · rw [h]

/-- Concrete instance of C1 from the spec: with validators
`[always-fail "A", always-fail "B"]`, `run` returns the failure `"A"` and
only the first validator is ever invoked (the trace is the single input). -/
theorem validationPipeline_short_circuit_witness :
    (ValidationPipeline.mk
        [(fun _ => make_left "A" : Validator Nat),
         (fun _ => make_left "B")]).run 7 = make_left "A" ∧
      (runListTrace
        [(fun _ => make_left "A" : Validator Nat),
         (fun _ => make_left "B")] 7).2 = [7] := by
  have h := validationPipeline_short_circuit []
    [(fun _ => make_left "B" : Validator Nat)]
    (fun _ => make_left "A") 7 rfl rfl
  simpa using h

theorem runList_allSucceed {T : Type} (vs : List (Validator T)) (x : T)
    (h : allSucceed vs x = true) :
    runList vs x = make_right (threadAll vs x) := by
  induction vs generalizing x with
  | nil => rfl
  | cons v rest ih =>
    simp only [allSucceed, Bool.and_eq_true, Bool.not_eq_true'] at h
    obtain ⟨hv, hrest⟩ := h
    simp only [runList, hv, Bool.false_eq_true, if_false, threadAll,
      ih (v x).right hrest]

/-- C2: whenever every validator succeeds on its (threaded) input —
including the empty list — `run` returns success carrying the value
threaded through all validators: the output of the final validator, or
the original input for the empty list. -/
theorem validationPipeline_run_all_succeed {T : Type}
    (p : ValidationPipeline T) (x : T)
    (h : allSucceed p.validators x = true) :
    p.run x = make_right (threadAll p.validators x) :=
  runList_allSucceed p.validators x h

/-- Concrete instance of C2 from the spec: `v1` doubles its input and
`v2` checks evenness; `run 3` succeeds with value `6`.  Also the empty
pipeline returns success with the original input. -/
theorem validationPipeline_run_all_succeed_witness :
    (ValidationPipeline.mk
        [(fun n => make_right (2 * n) : Validator Nat),
         (fun n => if n % 2 = 0 then make_right n
                   else make_left "odd")]).run 3 = make_right 6 ∧
      (ValidationPipeline.mk ([] : List (Validator Nat))).run 5 =
        make_right 5 := by
  constructor
  · have h := validationPipeline_run_all_succeed
      (ValidationPipeline.mk
        [(fun n => make_right (2 * n) : Validator Nat),
         (fun n => if n % 2 = 0 then make_right n
                   else make_left "odd")]) 3 (by decide)
    simpa using h
  · exact validationPipeline_run_all_succeed
      (ValidationPipeline.mk ([] : List (Validator Nat))) 5 rfl

/-- C3: monad laws for `Either` under `ebind`: left identity
`ebind(make_right v, f) = f v`, and failure propagation
`ebind(make_left e, f) = make_left e` for every `f`. -/
theorem ebind_monad_laws {E T U : Type} [Inhabited E] [Inhabited T]
    [Inhabited U] :
    (∀ (v : T) (f : T → Either E U), ebind (make_right v) f = f v) ∧
      (∀ (e : E) (f : T → Either E U), ebind (make_left e) f = make_left e) := by
  constructor
  · intro v f
    simp [ebind, make_right]
  · intro e f
    simp [ebind, make_left]

/-- Concrete instance of C3 at `E = String`, `T = U = Nat`. -/
theorem ebind_monad_laws_witness :
    ebind (make_right 5 : Either String Nat) (fun n => make_right (n + 1)) =
        make_right 6 ∧
      ebind (make_left "E" : Either String Nat)
          (fun n => make_right (n + 1)) = make_left "E" := by
  constructor
  · have h := (ebind_monad_laws (E := String) (T := Nat) (U := Nat)).1 5
      (fun n => make_right (n + 1))
    simpa using h
  · exact (ebind_monad_laws (E := String) (T := Nat) (U := Nat)).2 "E"
      (fun n => make_right (n + 1))

/-- C4: for a function wrapped by `curry<N>`, any application whose
cumulative argument count reaches or exceeds `N` invokes the underlying
function on all concatenated arguments and returns its result directly;
overshooting (strictly more than `N` cumulative arguments) takes the
same branch, with the excess arguments passed through to the function
rather than rejected. -/
theorem curried_full_application {Arity : Nat} {α β : Type}
    (c : Curried Arity α β) (newArgs : List α)
    (h : Arity ≤ c.args.length + newArgs.length) :
    c.app newArgs = .done (c.func (c.args ++ newArgs)) := by
  rw [Curried.app, if_neg (by omega)]

/-- Concrete instance of C4 with overshoot: arity 2, three arguments in
one call; the underlying sum receives all three. -/
theorem curried_full_application_witness :
    (curry 2 (fun l => l.sum) : Curried 2 Nat Nat).app [10, 20, 30] =
      .done 60 := by
  have h := curried_full_application
    (curry 2 (fun l => l.sum) : Curried 2 Nat Nat) [10, 20, 30]
    (by decide)
  simpa using h

/-- C5: currying a binary function: `curry<2>(add)(a)(b) = add a b`,
`curry<2>(add)(a, b) = add a b`, and the partial application holding `a`
is an independent value: applying it with `b` and separately with `b2`
yields `add a b` and `add a b2`, each application leaving the partial
application unchanged (it is a plain value, no mutation). -/
theorem curry_two_laws {α β : Type} [Inhabited α] (add : α → α → β)
    (a b b2 : α) :
    (curry 2 (arity2 add) : Curried 2 α β).app [a] =
        .more ⟨arity2 add, [a]⟩ ∧
      (⟨arity2 add, [a]⟩ : Curried 2 α β).app [b] = .done (add a b) ∧
      (⟨arity2 add, [a]⟩ : Curried 2 α β).app [b2] = .done (add a b2) ∧
      (curry 2 (arity2 add) : Curried 2 α β).app [a, b] = .done (add a b) := by
  refine ⟨?_, ?_, ?_, ?_⟩ <;>
    simp [Curried.app, curry, arity2, List.getD]

/-- Concrete instance of C5 at `add = Nat.add`, `a = 1`, `b = 2`,
`b2 = 40`: both application shapes give `add 1 2 = 3`, and the partial
application reused with `40` independently gives `41`. -/
theorem curry_two_laws_witness :
    (curry 2 (arity2 Nat.add) : Curried 2 Nat Nat).app [1] =
        .more ⟨arity2 Nat.add, [1]⟩ ∧
      (⟨arity2 Nat.add, [1]⟩ : Curried 2 Nat Nat).app [2] = .done 3 ∧
      (⟨arity2 Nat.add, [1]⟩ : Curried 2 Nat Nat).app [40] = .done 41 ∧
      (curry 2 (arity2 Nat.add) : Curried 2 Nat Nat).app [1, 2] = .done 3 := by
  have h := curry_two_laws Nat.add 1 2 40
  simpa using h

theorem eval_cached {T : Type} (lz : Lazy T) (v : T)
    (h : lz.cached = some v) : eval lz = (v, lz, 0) := by
  rw [eval, h]

theorem evalN_cached {T : Type} (lz : Lazy T) (v : T) (n : Nat)
    (h : lz.cached = some v) : evalN lz n = (lz, 0) := by
  induction n with
  | zero => rfl
  | succ m ih =>
    rw [evalN, eval_cached lz v h]
    simp [ih]

/-- C6: the thunk of a `Lazy` value is invoked at most once over the
lifetime of the instance: the first `eval` invokes it exactly once
(count 1) and caches the result; any `eval` on a cached instance returns
the cached value with zero invocations; hence after any `n ≥ 1`
successive `eval` calls the total invocation count is exactly 1, and the
cache holds the value of the thunk. -/
theorem lazy_eval_thunk_once {T : Type} (f : Unit → T) (n : Nat)
    (h : 1 ≤ n) :
    eval (lazy f) = (f (), ⟨f, some (f ())⟩, 1) ∧
      (∀ v, eval (⟨f, some v⟩ : Lazy T) = (v, ⟨f, some v⟩, 0)) ∧
      (evalN (lazy f) n).2 = 1 ∧
      (evalN (lazy f) n).1 = ⟨f, some (f ())⟩ := by
  obtain ⟨m, rfl⟩ : ∃ m, n = m + 1 := ⟨n - 1, by omega⟩
  refine ⟨rfl, fun v => rfl, ?_, ?_⟩
  · rw [evalN]
    simp only [eval, lazy]
    rw [evalN_cached ⟨f, some (f ())⟩ (f ()) m rfl]
    rfl
  · rw [evalN]
    simp only [eval, lazy]
    rw [evalN_cached ⟨f, some (f ())⟩ (f ()) m rfl]

/-- Concrete instance of C6: a constant thunk evaluated three times has
been invoked exactly once, and the cache holds its value. -/
theorem lazy_eval_thunk_once_witness :
    (evalN (lazy (fun _ => (42 : Nat))) 3).2 = 1 ∧
      (evalN (lazy (fun _ => (42 : Nat))) 3).1 =
        ⟨fun _ => (42 : Nat), some 42⟩ := by
  have h := lazy_eval_thunk_once (fun _ => (42 : Nat)) 3 (by omega)
  exact ⟨h.2.2.1, h.2.2.2⟩

theorem foldl_thenH {T ε : Type} (hs : List (T → ε)) (ar : AsyncResult T ε) :
    hs.foldl AsyncResult.thenH ar =
      ⟨ar.executor, ar.successHandlers ++ hs, ar.errorHandlers⟩ := by
  induction hs generalizing ar with
  | nil => simp
  | cons h rest ih =>
    simp [List.foldl_cons, ih, AsyncResult.thenH]

theorem foldl_catch {T ε : Type} (hs : List (String → ε))
    (ar : AsyncResult T ε) :
    hs.foldl AsyncResult.catch_ ar =
      ⟨ar.executor, ar.successHandlers, ar.errorHandlers ++ hs⟩ := by
  induction hs generalizing ar with
  | nil => simp
  | cons h rest ih =>
    simp [List.foldl_cons, ih, AsyncResult.catch_]

/-- C7: registering success handlers `shs` (in that order, via `then`)
and error handlers `ehs` (via `catch_`) on a fresh `AsyncResult` and
calling `execute()`: with an executor that resolves once with `v`, the
effect trace is exactly one invocation of each success handler on `v`,
in registration order, and no error handler invocation; with an executor
that rejects once with `e`, the trace is exactly one invocation of each
error handler on `e`, in registration order, and no success handler
invocation. -/
theorem asyncResult_fanout {T ε : Type} (v : T) (e : String)
    (shs : List (T → ε)) (ehs : List (String → ε)) :
    ((ehs.foldl AsyncResult.catch_ (shs.foldl AsyncResult.thenH
        (AsyncResult.create (fun res _ => res v)))).execute).2 =
        shs.map (fun h => h v) ∧
      ((ehs.foldl AsyncResult.catch_ (shs.foldl AsyncResult.thenH
        (AsyncResult.create (fun _ rej => rej e)))).execute).2 =
        ehs.map (fun h => h e) := by
  constructor <;>
    simp [foldl_catch, foldl_thenH, AsyncResult.create, AsyncResult.execute]

theorem executeN_unfold {T ε : Type} (ar : AsyncResult T ε) (k : Nat) :
    ar.executeN k = (ar, List.flatten (List.replicate k ar.execute.2)) := by
  induction k with
  | zero => rfl
  | succ m ih =>
    rw [AsyncResult.executeN]
    simp only [AsyncResult.execute] at ih ⊢
    simp [ih, List.replicate_succ]

theorem length_flatten_replicate {ε : Type} (k : Nat) (l : List ε) :
    (List.flatten (List.replicate k l)).length = k * l.length := by
  induction k with
  | zero => simp
  | succ m ih =>
    simp [List.replicate_succ, ih, Nat.succ_mul, Nat.add_comm]

/-- C10: `execute()` is not one-shot.  Each call leaves the object
unchanged and invokes the stored executor anew, so `k` successive calls
produce `k` concatenated copies of the single-call effect trace; with a
synchronously resolving executor every registered success handler fires
`k` times (the trace is `k` copies of the fan-out, of total length
`k * |handlers|`).  Nothing in the type records or prevents repeated
settlement. -/
theorem asyncResult_execute_repeatable {T ε : Type} (ar : AsyncResult T ε)
    (k : Nat) (v : T) (shs : List (T → ε)) (ehs : List (String → ε)) :
    (ar.executeN k).1 = ar ∧
      (ar.executeN k).2 = List.flatten (List.replicate k ar.execute.2) ∧
      ((AsyncResult.mk (fun res _ => res v) shs ehs).executeN k).2 =
        List.flatten (List.replicate k (shs.map (fun h => h v))) ∧
      ((AsyncResult.mk (fun res _ => res v) shs ehs).executeN k).2.length =
        k * shs.length := by
  refine ⟨?_, ?_, ?_, ?_⟩
  · rw [executeN_unfold]
  · rw [executeN_unfold]
  · rw [executeN_unfold]
    simp [AsyncResult.execute]
  · rw [executeN_unfold]
    simp [AsyncResult.execute, length_flatten_replicate]

/-- C8 counterexample: `TestResult::getValue` does raise: on the failure
result `failure("boom")` it throws
`runtime_error("TestResult: Cannot get value from failure")` instead of
returning a value, so it is not the case that every `TestResult`
accessor call returns a value. -/
theorem testResult_getValue_throws :
    (TestResult.failure "boom" : TestResult Nat).getValue =
        Except.error "TestResult: Cannot get value from failure" ∧
      ¬ (∀ r : TestResult Nat, ∃ v, r.getValue = Except.ok v) := by
  refine ⟨rfl, fun h => ?_⟩
  obtain ⟨v, hv⟩ := h (TestResult.failure "boom")
  simp [TestResult.getValue, TestResult.failure] at hv

/-- C8 amended: failures are values everywhere except
`TestResult::getValue`: `getValue` returns the stored value exactly when
the result is a success, and on a failure result it throws
`std::runtime_error("TestResult: Cannot get value from failure")`
(embedded as `Except.error`) rather than returning a value. -/
theorem testResult_getValue_spec {T : Type} (r : TestResult T) :
    ((∃ v, r.getValue = Except.ok v) ↔ r.success = true) ∧
      (r.success = true → r.getValue = Except.ok r.value) ∧
      (r.success = false →
        r.getValue = Except.error "TestResult: Cannot get value from failure") := by
  refine ⟨⟨fun h => ?_, fun h => ⟨r.value, by simp [TestResult.getValue, h]⟩⟩,
    fun h => by simp [TestResult.getValue, h],
    fun h => by simp [TestResult.getValue, h]⟩
  obtain ⟨v, hv⟩ := h
  cases hs : r.success with
  | true => rfl
  | false =>
    rw [TestResult.getValue, hs] at hv
    simp at hv

/-- Concrete instance of the amended C8: `getValue` on a success result
returns the value; on a failure result it raises the runtime error. -/
theorem testResult_getValue_spec_witness :
    (TestResult.mk true 5 "" [] : TestResult Nat).getValue = Except.ok 5 ∧
      (TestResult.mk false 0 "m" [] : TestResult Nat).getValue =
        Except.error "TestResult: Cannot get value from failure" :=
  ⟨(testResult_getValue_spec (TestResult.mk true 5 "" [])).2.1 rfl,
   (testResult_getValue_spec (TestResult.mk false 0 "m" [])).2.2 rfl⟩

theorem fst_map_replace {A : Type} (ss : List (String × A)) (k : String)
    (a : A) :
    (ss.map (fun p => if p.1 = k then (k, a) else p)).map Prod.fst =
      ss.map Prod.fst := by
  rw [List.map_map]
  refine List.map_congr_left (fun p _ => ?_)
  by_cases hp : p.1 = k
  · simp [hp]
  · simp [hp]

theorem map_replace_replace {A : Type} (ss : List (String × A)) (k : String)
    (a1 a2 : A) :
    (ss.map (fun p => if p.1 = k then (k, a1) else p)).map
        (fun p => if p.1 = k then (k, a2) else p) =
      ss.map (fun p => if p.1 = k then (k, a2) else p) := by
  induction ss with
  | nil => rfl
  | cons p rest ih =>
    by_cases hp : p.1 = k
    · simp [hp, ih]
    · simp [hp, ih]

theorem map_replace_of_not_mem {A : Type} (ss : List (String × A))
    (k : String) (a : A) (h : k ∉ ss.map Prod.fst) :
    ss.map (fun p => if p.1 = k then (k, a) else p) = ss := by
  induction ss with
  | nil => rfl
  | cons p rest ih =>
    simp only [List.map_cons, List.mem_cons, not_or] at h
    have hp : ¬ p.1 = k := fun hc => h.1 hc.symm
    simp [hp, ih h.2]

theorem mapAssign_mapAssign {A : Type} (ss : List (String × A))
    (k : String) (a1 a2 : A) :
    mapAssign (mapAssign ss k a1) k a2 = mapAssign ss k a2 := by
  unfold mapAssign
  by_cases h : k ∈ ss.map Prod.fst
  · have h2 : k ∈ (ss.map (fun p => if p.1 = k then (k, a1) else p)).map
        Prod.fst := by
      rw [fst_map_replace]
      exact h
    rw [if_pos h, if_pos h2, if_pos h, map_replace_replace]
  · have h2 : k ∈ (ss ++ [(k, a1)]).map Prod.fst := by simp
    rw [if_neg h, if_pos h2, if_neg h, List.map_append,
      map_replace_of_not_mem ss k a2 h]
    simp

theorem keys_mapAssign {A : Type} (ss : List (String × A)) (k : String)
    (a : A) :
    (mapAssign ss k a).map Prod.fst =
      if k ∈ ss.map Prod.fst then ss.map Prod.fst
      else ss.map Prod.fst ++ [k] := by
  unfold mapAssign
  by_cases h : k ∈ ss.map Prod.fst
  · rw [if_pos h, if_pos h, fst_map_replace]
  · rw [if_neg h, if_neg h, List.map_append]
    rfl

theorem setAll_invariant {V : Type} (ops : List (String × V))
    (b : ConfigBuilder V) (hnodup : (b.setters.map Prod.fst).Nodup) :
    ((ops.foldl (fun b p => b.set p.1 p.2) b).setters.map Prod.fst).Nodup ∧
      ∀ x, x ∈ (ops.foldl (fun b p => b.set p.1 p.2) b).setters.map
          Prod.fst ↔
        x ∈ b.setters.map Prod.fst ∨ x ∈ ops.map Prod.fst := by
  induction ops generalizing b with
  | nil => exact ⟨hnodup, fun x => by simp⟩
  | cons op rest ih =>
    simp only [List.foldl_cons]
    have hkeys := keys_mapAssign b.setters op.1
      (fun config => config.set op.1 op.2)
    by_cases h : op.1 ∈ b.setters.map Prod.fst
    · have hk : ((b.set op.1 op.2).setters.map Prod.fst) =
          b.setters.map Prod.fst := by
        simp only [ConfigBuilder.set]
        rw [hkeys, if_pos h]
      obtain ⟨h1, h2⟩ := ih (b.set op.1 op.2) (by rw [hk]; exact hnodup)
      refine ⟨h1, fun x => ?_⟩
      rw [h2 x, hk, List.map_cons, List.mem_cons]
      by_cases hx : x = op.1
      · subst hx
        simp [h]
      · tauto
    · have hk : ((b.set op.1 op.2).setters.map Prod.fst) =
          b.setters.map Prod.fst ++ [op.1] := by
        simp only [ConfigBuilder.set]
        rw [hkeys, if_neg h]
      have hnodup2 : ((b.set op.1 op.2).setters.map Prod.fst).Nodup := by
        rw [hk]
        simp [List.nodup_append, hnodup, h]
      obtain ⟨h1, h2⟩ := ih (b.set op.1 op.2) hnodup2
      refine ⟨h1, fun x => ?_⟩
      rw [h2 x, hk, List.mem_append]
      simp only [List.map_cons, List.mem_cons, List.mem_singleton,
        List.not_mem_nil, or_false]
      tauto

/-- C9: duplicate keys in `ConfigBuilder` are silently overwritten with
last write winning: `set(k, v1)` followed by `set(k, v2)` yields exactly
the builder `set(k, v2)` would yield (one setter for `k`, the later
one), hence `build()` applies only the later setter; and the number of
setters applied at `build()` (one per stored entry) equals the number of
distinct keys ever set. -/
theorem configBuilder_last_write_wins {V : Type} :
    (∀ (b : ConfigBuilder V) (k : String) (v1 v2 : V),
        (b.set k v1).set k v2 = b.set k v2) ∧
      (∀ (b : ConfigBuilder V) (k : String) (v1 v2 : V),
        ((b.set k v1).set k v2).build = (b.set k v2).build) ∧
      (∀ ops : List (String × V),
        (setAll ops).setters.length = (ops.map Prod.fst).dedup.length) := by
  have hset : ∀ (b : ConfigBuilder V) (k : String) (v1 v2 : V),
      (b.set k v1).set k v2 = b.set k v2 := by
    intro b k v1 v2
    simp only [ConfigBuilder.set]
    rw [mapAssign_mapAssign]
  refine ⟨hset, fun b k v1 v2 => by rw [hset], fun ops => ?_⟩
  obtain ⟨h1, h2⟩ := setAll_invariant ops (configBuilder V) (by
    simp [configBuilder])
  have hfin : ((setAll ops).setters.map Prod.fst).toFinset =
      (ops.map Prod.fst).toFinset := by
    ext x
    simp only [List.mem_toFinset]
    rw [setAll, h2 x]
    simp [configBuilder]
  have hlen : (setAll ops).setters.length =
      ((setAll ops).setters.map Prod.fst).length := by
    simp
  have hnodup : ((setAll ops).setters.map Prod.fst).Nodup := h1
  rw [hlen, ← List.toFinset_card_of_nodup hnodup, hfin,
    List.card_toFinset]

/-- Concrete instance of C9: setting key `a` twice keeps one setter. -/
theorem configBuilder_last_write_wins_witness :
    (setAll [("a", (1 : Nat)), ("a", 2)]).setters.length = 1 := by
  have h := (configBuilder_last_write_wins (V := Nat)).2.2
    [("a", 1), ("a", 2)]
  rw [h]
  decide

end func
